import Mathlib

/-!
Verification of `apply_migrations.go` from DaviSMoura/supabase-direct-migrate.

The Go program is shallowly embedded: strings are `List Char` (Go strings are
UTF-8 byte sequences; every separator used by the program is ASCII, so
rune-level modelling is faithful), the Go standard-library string functions
used by the program (`strings.Split`, `strings.SplitN`, `strings.TrimSpace`,
`strings.Join`, `strings.ReplaceAll`, `strings.HasSuffix`) are given as
executable Lean functions with the same semantics, and `crypto/sha256` plus
`encoding/hex` are implemented in full.  The filesystem and the SQL driver are
external collaborators: the directory listing is passed in as data, and the
database is modelled by an abstract world type with an oracle for statement
execution, together with explicit transaction state (pending changes become
durable only on commit), matching the documented contract of `database/sql`
transactions.
-/

namespace SupabaseDirectMigrate

/-! ## Go string primitives -/

/-- Code points accepted by Go's `unicode.IsSpace` (the White_Space property). -/
def goSpaceCodes : List Nat :=
  [9, 10, 11, 12, 13, 32, 133, 160, 0x1680,
   0x2000, 0x2001, 0x2002, 0x2003, 0x2004, 0x2005, 0x2006, 0x2007, 0x2008,
   0x2009, 0x200A, 0x2028, 0x2029, 0x202F, 0x205F, 0x3000]

/-- Go's `unicode.IsSpace`. -/
def goIsSpace (c : Char) : Bool := goSpaceCodes.contains c.toNat

/-- Go's `strings.TrimSpace`: drop White_Space characters from both ends. -/
def goTrimSpace (s : List Char) : List Char :=
  ((s.dropWhile goIsSpace).reverse.dropWhile goIsSpace).reverse

/-- Fuel-indexed worker for Go's `strings.Split` with a non-empty separator:
scan left to right, cutting at each leftmost non-overlapping occurrence of
`sep`.  `acc` holds the current chunk reversed.  Fuel `s.length` always
suffices; the fuel-0 fallback only fires on the empty remainder. -/
def splitGoFuel (sep : List Char) : Nat → List Char → List Char → List (List Char)
  | 0, acc, s => [acc.reverse ++ s]
  | fuel + 1, acc, s =>
    match s with
    | [] => [acc.reverse]
    | c :: rest =>
      if sep.isPrefixOf (c :: rest) then
        acc.reverse :: splitGoFuel sep fuel [] ((c :: rest).drop sep.length)
      else
        splitGoFuel sep fuel (c :: acc) rest

/-- Go's `strings.Split s sep` (for non-empty `sep`), with the chunk
accumulator exposed for proofs. -/
def splitGoAcc (sep acc s : List Char) : List (List Char) :=
  splitGoFuel sep s.length acc s

/-- Go's `strings.Split s sep` for non-empty `sep`. -/
def splitGo (sep s : List Char) : List (List Char) :=
  splitGoAcc sep [] s

/-- Whether `sep` occurs as a contiguous sublist of `s`
(Go's `strings.Contains` for non-empty `sep`). -/
def hasOccur (sep : List Char) : List Char → Bool
  | [] => sep.isEmpty
  | c :: rest => sep.isPrefixOf (c :: rest) || hasOccur sep rest

/-- Go's `strings.Join`. -/
def goJoin (sep : List Char) : List (List Char) → List Char
  | [] => []
  | [p] => p
  | p :: ps => p ++ sep ++ goJoin sep ps

/-- Go's `strings.SplitN s sep 2`: split at the first occurrence of `sep`
only; the accumulator holds the scanned part reversed. -/
def splitN2Aux (sep acc : List Char) : List Char → List (List Char)
  | [] => [acc.reverse]
  | c :: rest =>
    if sep.isPrefixOf (c :: rest) then
      [acc.reverse, (c :: rest).drop sep.length]
    else
      splitN2Aux sep (c :: acc) rest

/-- Go's `strings.SplitN s sep 2`. -/
def splitN2 (sep s : List Char) : List (List Char) := splitN2Aux sep [] s

/-- Go's `strings.ReplaceAll` for a single-character pattern. -/
def replAll (t : Char) (r : List Char) : List Char → List Char
  | [] => []
  | c :: rest => (if c = t then r else [c]) ++ replAll t r rest

/-! ## Basic lemmas about the string primitives -/

theorem isPrefixOf_iff_exists {α : Type} [DecidableEq α] :
    ∀ (x y : List α), x.isPrefixOf y = true ↔ ∃ t, x ++ t = y := by
  intro x
  induction x with
  | nil =>
    intro y
    simp [List.isPrefixOf]
  | cons a as ih =>
    intro y
    cases y with
    | nil =>
      simp [List.isPrefixOf]
    | cons b bs =>
      simp only [List.isPrefixOf, Bool.and_eq_true, beq_iff_eq, ih bs]
      constructor
      · rintro ⟨rfl, t, rfl⟩
        exact ⟨t, rfl⟩
      · rintro ⟨t, h⟩
        injection h with h1 h2
        exact ⟨h1, t, h2⟩

theorem isPrefixOf_self_append {α : Type} [DecidableEq α] (x t : List α) :
    x.isPrefixOf (x ++ t) = true :=
  (isPrefixOf_iff_exists x (x ++ t)).mpr ⟨t, rfl⟩

theorem eq_append_drop_of_isPrefixOf {α : Type} [DecidableEq α] {x s : List α}
    (h : x.isPrefixOf s = true) : s = x ++ s.drop x.length := by
  obtain ⟨t, rfl⟩ := (isPrefixOf_iff_exists x s).mp h
  simp

theorem hasOccur_iff_parts {sep : List Char} (hsep : sep ≠ []) :
    ∀ s, hasOccur sep s = true ↔ ∃ x y, s = x ++ sep ++ y := by
  intro s
  induction s with
  | nil =>
    simp only [hasOccur, List.isEmpty_iff]
    constructor
    · intro h; exact absurd h hsep
    · rintro ⟨x, y, h⟩
      rcases sep with _ | ⟨c, cs⟩
      · exact absurd rfl hsep
      · exact absurd h (by simp)
  | cons c rest ih =>
    simp only [hasOccur, Bool.or_eq_true, ih, isPrefixOf_iff_exists]
    constructor
    · rintro (⟨t, h⟩ | ⟨x, y, rfl⟩)
      · exact ⟨[], t, by simp [h]⟩
      · exact ⟨c :: x, y, by simp⟩
    · rintro ⟨x, y, h⟩
      cases x with
      | nil =>
        left
        exact ⟨y, by simpa using h.symm⟩
      | cons x0 xs =>
        right
        injection h with h1 h2
        exact ⟨xs, y, h2⟩

/-- Fuel irrelevance for `splitGoFuel`: any fuel at least the length of the
input produces the same result, provided the separator is non-empty. -/
theorem splitGoFuel_fuel_eq {sep : List Char} (hsep : sep ≠ []) :
    ∀ f₁ f₂ acc s, s.length ≤ f₁ → s.length ≤ f₂ →
      splitGoFuel sep f₁ acc s = splitGoFuel sep f₂ acc s := by
  intro f₁
  induction f₁ with
  | zero =>
    intro f₂ acc s h1 _
    have hs : s = [] := List.length_eq_zero.mp (Nat.le_zero.mp h1)
    subst hs
    cases f₂ <;> simp [splitGoFuel]
  | succ f ih =>
    intro f₂ acc s h1 h2
    cases s with
    | nil => cases f₂ <;> simp [splitGoFuel]
    | cons c rest =>
      cases f₂ with
      | zero => simp at h2
      | succ f₂' =>
        have hseplen : 1 ≤ sep.length := by
          cases sep with
          | nil => exact absurd rfl hsep
          | cons a as => simp
        have hr1 : rest.length + 1 ≤ f + 1 := by simpa using h1
        have hr2 : rest.length + 1 ≤ f₂' + 1 := by simpa using h2
        simp only [splitGoFuel]
        cases hp : sep.isPrefixOf (c :: rest) with
        | true =>
          rw [if_pos rfl, if_pos rfl]
          have hd : ((c :: rest).drop sep.length).length ≤ f := by
            rw [List.length_drop, List.length_cons]
            omega
          have hd2 : ((c :: rest).drop sep.length).length ≤ f₂' := by
            rw [List.length_drop, List.length_cons]
            omega
          rw [ih f₂' [] _ hd hd2]
        | false =>
          rw [if_neg (by simp [hp]), if_neg (by simp [hp])]
          exact ih f₂' (c :: acc) rest (by omega) (by omega)

theorem splitGoAcc_nil (sep acc : List Char) :
    splitGoAcc sep acc [] = [acc.reverse] := by
  simp [splitGoAcc, splitGoFuel]

theorem splitGoAcc_cons_nomatch {sep : List Char} {c : Char} {rest : List Char}
    (h : sep.isPrefixOf (c :: rest) = false) (acc : List Char) :
    splitGoAcc sep acc (c :: rest) = splitGoAcc sep (c :: acc) rest := by
  simp [splitGoAcc, splitGoFuel, h]

theorem splitGoAcc_match {sep : List Char} (hsep : sep ≠ []) (acc t : List Char) :
    splitGoAcc sep acc (sep ++ t) = acc.reverse :: splitGoAcc sep [] t := by
  cases sep with
  | nil => exact absurd rfl hsep
  | cons c0 s0 =>
    have hp : (c0 :: s0).isPrefixOf ((c0 :: s0) ++ t) = true :=
      isPrefixOf_self_append _ _
    have hlen : ((c0 :: s0) ++ t).length = (s0 ++ t).length + 1 := by simp
    simp only [splitGoAcc, List.cons_append, hlen]
    simp only [splitGoFuel]
    rw [if_pos (by simp only [List.cons_append] at hp; exact hp)]
    have hdrop : ((c0 :: (s0 ++ t)).drop (c0 :: s0).length) = t := by
      have : (c0 :: (s0 ++ t)) = (c0 :: s0) ++ t := by simp
      rw [this]
      exact List.drop_left (c0 :: s0) t
    rw [hdrop]
    congr 1
    exact splitGoFuel_fuel_eq hsep _ _ [] t (by simp) (le_refl _)

theorem splitGoAcc_no_occur {sep : List Char} :
    ∀ s acc, hasOccur sep s = false → splitGoAcc sep acc s = [acc.reverse ++ s] := by
  intro s
  induction s with
  | nil => intro acc _; simp [splitGoAcc_nil]
  | cons c rest ih =>
    intro acc h
    simp only [hasOccur, Bool.or_eq_false_iff] at h
    rw [splitGoAcc_cons_nomatch h.1 acc, ih _ h.2]
    simp

theorem splitGoFuel_ne_nil (sep : List Char) :
    ∀ fuel acc s, splitGoFuel sep fuel acc s ≠ [] := by
  intro fuel
  induction fuel with
  | zero => intro acc s; simp [splitGoFuel]
  | succ f ih =>
    intro acc s
    cases s with
    | nil => simp [splitGoFuel]
    | cons c rest =>
      simp only [splitGoFuel]
      by_cases hp : sep.isPrefixOf (c :: rest) = true
      · simp [hp]
      · rw [if_neg hp]
        exact ih _ _

theorem goJoin_cons_of_ne_nil (sep x : List Char) {l : List (List Char)} (h : l ≠ []) :
    goJoin sep (x :: l) = x ++ sep ++ goJoin sep l := by
  cases l with
  | nil => exact absurd rfl h
  | cons y ys => rfl

/-- Joining the chunks of Go's `strings.Split` with the separator restores the
original string. -/
theorem goJoin_splitGoFuel {sep : List Char} (hsep : sep ≠ []) :
    ∀ fuel acc s, s.length ≤ fuel →
      goJoin sep (splitGoFuel sep fuel acc s) = acc.reverse ++ s := by
  intro fuel
  induction fuel with
  | zero =>
    intro acc s _
    simp [splitGoFuel, goJoin]
  | succ f ih =>
    intro acc s hs
    cases s with
    | nil => simp [splitGoFuel, goJoin]
    | cons c rest =>
      have hseplen : 1 ≤ sep.length := by
        cases sep with
        | nil => exact absurd rfl hsep
        | cons a as => simp
      have hr : rest.length + 1 ≤ f + 1 := by simpa using hs
      simp only [splitGoFuel]
      cases hp : sep.isPrefixOf (c :: rest) with
      | true =>
        rw [if_pos rfl]
        rw [goJoin_cons_of_ne_nil sep _ (splitGoFuel_ne_nil sep f [] _)]
        have hd : ((c :: rest).drop sep.length).length ≤ f := by
          rw [List.length_drop, List.length_cons]
          omega
        rw [ih [] _ hd]
        have : (c :: rest) = sep ++ (c :: rest).drop sep.length :=
          eq_append_drop_of_isPrefixOf hp
        conv_rhs => rw [this]
        simp
      | false =>
        rw [if_neg (by simp [hp])]
        rw [ih (c :: acc) rest (by omega)]
        simp

theorem goJoin_splitGo {sep : List Char} (hsep : sep ≠ []) (s : List Char) :
    goJoin sep (splitGo sep s) = s := by
  have := goJoin_splitGoFuel hsep s.length [] s (le_refl _)
  simpa [splitGo, splitGoAcc] using this

/-- If the accumulator so far contains no match start (every position of the
already-scanned chunk was checked), the emitted chunk has no occurrence of the
separator. -/
theorem hasOccur_reverse_of_inv {sep : List Char} (hsep : sep ≠ [])
    {acc s : List Char}
    (hinv : ∀ k, k < acc.length → sep.isPrefixOf ((acc.reverse ++ s).drop k) = false) :
    hasOccur sep acc.reverse = false := by
  cases hocc : hasOccur sep acc.reverse with
  | false => rfl
  | true =>
    exfalso
    obtain ⟨x, y, hxy⟩ := (hasOccur_iff_parts hsep acc.reverse).mp hocc
    have hseplen : 1 ≤ sep.length := by
      cases sep with
      | nil => exact absurd rfl hsep
      | cons a as => simp
    have hklt : x.length < acc.length := by
      have := congrArg List.length hxy
      simp at this
      omega
    have hdrop : (acc.reverse ++ s).drop x.length = sep ++ (y ++ s) := by
      rw [hxy]
      have : (x ++ sep ++ y) ++ s = x ++ (sep ++ (y ++ s)) := by simp
      rw [this]
      exact List.drop_left x _
    have := hinv x.length hklt
    rw [hdrop, isPrefixOf_self_append] at this
    exact Bool.true_eq_false.mp this

/-- Every chunk produced by Go's `strings.Split` is free of the separator. -/
theorem splitGoFuel_chunks_no_occur {sep : List Char} (hsep : sep ≠ []) :
    ∀ fuel acc s, s.length ≤ fuel →
      (∀ k, k < acc.length → sep.isPrefixOf ((acc.reverse ++ s).drop k) = false) →
      ∀ p ∈ splitGoFuel sep fuel acc s, hasOccur sep p = false := by
  intro fuel
  induction fuel with
  | zero =>
    intro acc s hs hinv p hp
    have hsnil : s = [] := List.length_eq_zero.mp (Nat.le_zero.mp hs)
    subst hsnil
    simp only [splitGoFuel, List.mem_singleton] at hp
    subst hp
    simpa using hasOccur_reverse_of_inv hsep hinv
  | succ f ih =>
    intro acc s hs hinv p hp
    cases s with
    | nil =>
      simp only [splitGoFuel, List.mem_singleton] at hp
      subst hp
      exact hasOccur_reverse_of_inv hsep hinv
    | cons c rest =>
      have hseplen : 1 ≤ sep.length := by
        cases sep with
        | nil => exact absurd rfl hsep
        | cons a as => simp
      have hr : rest.length + 1 ≤ f + 1 := by simpa using hs
      simp only [splitGoFuel] at hp
      cases hpre : sep.isPrefixOf (c :: rest) with
      | true =>
        rw [if_pos (by simp [hpre])] at hp
        rcases List.mem_cons.mp hp with h | h
        · subst h
          exact hasOccur_reverse_of_inv hsep hinv
        · refine ih [] _ (by rw [List.length_drop, List.length_cons]; omega) ?_ p h
          intro k hk
          simp at hk
      | false =>
        rw [if_neg (by simp [hpre])] at hp
        refine ih (c :: acc) rest (by omega) ?_ p hp
        intro k hk
        have hrw : (c :: acc).reverse ++ rest = acc.reverse ++ (c :: rest) := by simp
        rw [hrw]
        rcases Nat.lt_succ_iff_lt_or_eq.mp (by simpa using hk) with hlt | heq
        · exact hinv k hlt
        · subst heq
          have : (acc.reverse ++ (c :: rest)).drop acc.length = c :: rest := by
            have hlen : acc.reverse.length = acc.length := by simp
            rw [← hlen]
            exact List.drop_left _ _
          rw [this]
          exact hpre

theorem splitGo_chunks_no_occur {sep : List Char} (hsep : sep ≠ []) (s : List Char) :
    ∀ p ∈ splitGo sep s, hasOccur sep p = false := by
  intro p hp
  refine splitGoFuel_chunks_no_occur hsep s.length [] s (le_refl _) ?_ p hp
  intro k hk
  simp at hk

/-- `sep` has no proper self-overlap: no proper non-empty suffix-start of `sep`
is also a start of `sep`.  Decidable, checked by `decide` for the breakpoint
marker. -/
def noSelfOverlapB (sep : List Char) : Bool :=
  (List.range sep.length).all (fun t => t == 0 || !((sep.drop t).isPrefixOf sep))

theorem noSelfOverlap_spec {sep : List Char} (h : noSelfOverlapB sep = true) :
    ∀ t, 0 < t → t < sep.length → (sep.drop t).isPrefixOf sep = false := by
  intro t ht htlen
  have := List.all_eq_true.mp h t (List.mem_range.mpr htlen)
  simp only [Bool.or_eq_true, beq_iff_eq, Bool.not_eq_true'] at this
  rcases this with h0 | hfalse
  · omega
  · exact hfalse

/-- A match of `sep` cannot straddle the boundary between a `sep`-free string
and a following copy of `sep`. -/
theorem no_straddle {sep : List Char} (hsep : sep ≠ [])
    (hno : ∀ t, 0 < t → t < sep.length → (sep.drop t).isPrefixOf sep = false)
    {c : Char} {a' : List Char} (ha : hasOccur sep (c :: a') = false) (w : List Char) :
    sep.isPrefixOf ((c :: a') ++ sep ++ w) = false := by
  cases hpre : sep.isPrefixOf ((c :: a') ++ sep ++ w) with
  | false => rfl
  | true =>
    exfalso
    obtain ⟨u, hu⟩ := (isPrefixOf_iff_exists sep _).mp hpre
    set a : List Char := c :: a' with ha'
    have hu' : sep ++ u = a ++ (sep ++ w) := by rw [hu]; simp
    have hn1 : 1 ≤ a.length := by simp [ha']
    rcases le_or_lt sep.length a.length with hmn | hnm
    · -- the match would lie entirely inside `a`
      have htake : sep = a.take sep.length := by
        have h1 : (sep ++ u).take sep.length = sep := List.take_left sep u
        have h2 : (a ++ (sep ++ w)).take sep.length
            = a.take sep.length ++ (sep ++ w).take (sep.length - a.length) := by
          exact List.take_append_eq_append_take
        rw [hu'] at h1
        rw [h2] at h1
        have : sep.length - a.length = 0 := by omega
        rw [this] at h1
        simpa using h1.symm
      have : a = sep ++ a.drop sep.length := by
        conv_lhs => rw [← List.take_append_drop sep.length a, ← htake]
      have : hasOccur sep a = true :=
        (hasOccur_iff_parts hsep a).mpr ⟨[], a.drop sep.length, by simpa using this⟩
      rw [ha'] at this
      rw [this] at ha
      exact Bool.true_eq_false.mp ha
    · -- the match starts inside `a` and overlaps the following `sep`
      have hseplen : 1 ≤ sep.length := by omega
      have htakea : sep.take a.length = a := by
        have h1 : (sep ++ u).take a.length
            = sep.take a.length ++ u.take (a.length - sep.length) := by
          exact List.take_append_eq_append_take
        have : a.length - sep.length = 0 := by omega
        rw [this] at h1
        simp only [List.take_zero, List.append_nil] at h1
        have h2 : (a ++ (sep ++ w)).take a.length = a := List.take_left a _
        rw [hu'] at h1
        rw [h2] at h1
        exact h1.symm
      have hdropa : sep.drop a.length ++ u = sep ++ w := by
        have h1 : (sep ++ u).drop a.length
            = sep.drop a.length ++ u.drop (a.length - sep.length) := by
          exact List.drop_append_eq_append_drop
        have hz : a.length - sep.length = 0 := by omega
        rw [hz] at h1
        simp only [List.drop_zero] at h1
        have h2 : (a ++ (sep ++ w)).drop a.length = sep ++ w := by
          have hlen : a.length = a.length := rfl
          exact List.drop_left a _
        rw [hu'] at h1
        rw [h2] at h1
        exact h1.symm
      have hddlen : (sep.drop a.length).length = sep.length - a.length := by
        simp
      have hself : sep.drop a.length = sep.take (sep.length - a.length) := by
        have h1 : (sep.drop a.length ++ u).take (sep.length - a.length)
            = sep.drop a.length := by
          exact List.take_left' hddlen
        have h2 : (sep ++ w).take (sep.length - a.length)
            = sep.take (sep.length - a.length) ++ w.take (sep.length - a.length - sep.length) := by
          exact List.take_append_eq_append_take
        have hz : sep.length - a.length - sep.length = 0 := by omega
        rw [hz] at h2
        simp only [List.take_zero, List.append_nil] at h2
        rw [hdropa, h2] at h1
        exact h1.symm
      have hpref : (sep.drop a.length).isPrefixOf sep = true := by
        rw [hself]
        exact (isPrefixOf_iff_exists _ _).mpr
          ⟨sep.drop (sep.length - a.length), List.take_append_drop _ _⟩
      have := hno a.length (by omega) (by omega)
      rw [hpref] at this
      exact Bool.true_eq_false.mp this

/-- Scanning a `sep`-free chunk followed by `sep` emits exactly that chunk. -/
theorem splitGoAcc_chunk_step {sep : List Char} (hsep : sep ≠ [])
    (hno : ∀ t, 0 < t → t < sep.length → (sep.drop t).isPrefixOf sep = false) :
    ∀ a acc t, hasOccur sep a = false →
      splitGoAcc sep acc (a ++ sep ++ t) = (acc.reverse ++ a) :: splitGoAcc sep [] t := by
  intro a
  induction a with
  | nil =>
    intro acc t _
    simpa using splitGoAcc_match hsep acc t
  | cons c a' ih =>
    intro acc t ha
    have hstep : sep.isPrefixOf ((c :: a') ++ sep ++ t) = false :=
      no_straddle hsep hno ha t
    have hrw : (c :: a') ++ sep ++ t = c :: (a' ++ sep ++ t) := by simp
    rw [hrw] at hstep ⊢
    rw [splitGoAcc_cons_nomatch hstep acc]
    have ha' : hasOccur sep a' = false := by
      simp only [hasOccur, Bool.or_eq_false_iff] at ha
      exact ha.2
    have := ih (c :: acc) t ha'
    simp only [List.append_assoc] at this ⊢
    rw [this]
    simp

/-- Splitting the `sep`-join of `sep`-free parts recovers the parts. -/
theorem splitGo_join_eq {sep : List Char} (hsep : sep ≠ [])
    (hno : ∀ t, 0 < t → t < sep.length → (sep.drop t).isPrefixOf sep = false) :
    ∀ parts, parts ≠ [] → (∀ p ∈ parts, hasOccur sep p = false) →
      splitGo sep (goJoin sep parts) = parts := by
  intro parts
  induction parts with
  | nil => intro h; exact absurd rfl h
  | cons p ps ih =>
    intro _ hall
    cases ps with
    | nil =>
      have hp : hasOccur sep p = false := hall p (by simp)
      simp only [goJoin, splitGo]
      rw [splitGoAcc_no_occur p [] hp]
      simp
    | cons q rest =>
      have hp : hasOccur sep p = false := hall p (by simp)
      rw [goJoin_cons_of_ne_nil sep p (by simp)]
      simp only [splitGo]
      rw [splitGoAcc_chunk_step hsep hno p [] (goJoin sep (q :: rest)) hp]
      simp only [List.reverse_nil, List.nil_append]
      congr 1
      exact ih (by simp) (fun x hx => hall x (by simp [hx]))

/-! ## Lemmas about `goTrimSpace` -/

theorem dropWhile_idem (p : Char → Bool) (l : List Char) :
    (l.dropWhile p).dropWhile p = l.dropWhile p := by
  induction l with
  | nil => simp
  | cons c rest ih =>
    by_cases hc : p c = true
    · simp [List.dropWhile_cons, hc, ih]
    · simp [List.dropWhile_cons, hc]

theorem head?_dropWhile_false (p : Char → Bool) :
    ∀ (l : List Char) (c : Char), (l.dropWhile p).head? = some c → p c = false := by
  intro l
  induction l with
  | nil => intro c h; simp at h
  | cons x rest ih =>
    intro c h
    by_cases hx : p x = true
    · rw [List.dropWhile_cons, if_pos hx] at h
      exact ih c h
    · rw [List.dropWhile_cons, if_neg hx] at h
      simp only [List.head?_cons, Option.some_inj] at h
      subst h
      simpa using hx

theorem dropWhile_eq_self_of_head (p : Char → Bool) (l : List Char)
    (h : ∀ c, l.head? = some c → p c = false) : l.dropWhile p = l := by
  cases l with
  | nil => simp
  | cons c rest =>
    rw [List.dropWhile_cons, if_neg (by simp [h c rfl])]

theorem getLast?_dropWhile (p : Char → Bool) (l : List Char)
    (h : l.dropWhile p ≠ []) : (l.dropWhile p).getLast? = l.getLast? := by
  conv_rhs => rw [← List.takeWhile_append_dropWhile p l]
  rw [List.getLast?_append_of_ne_nil _ h]

theorem goTrimSpace_idem (s : List Char) :
    goTrimSpace (goTrimSpace s) = goTrimSpace s := by
  set p := goIsSpace with hp
  set y := s.dropWhile p with hy
  set w := y.reverse.dropWhile p with hw
  have hxrev : (w.reverse).reverse = w := by simp
  have hidem : w.reverse.reverse.dropWhile p = w := by
    rw [hxrev, hw, dropWhile_idem]
  have hleft : w.reverse.dropWhile p = w.reverse := by
    cases hwe : w with
    | nil => simp [hwe]
    | cons c0 w0 =>
      apply dropWhile_eq_self_of_head
      intro c hc
      have hwne : w ≠ [] := by rw [hwe]; simp
      have h1 : w.reverse.head? = w.getLast? := by
        rw [List.head?_reverse]
      have h2 : w.getLast? = y.reverse.getLast? := getLast?_dropWhile p y.reverse hwne
      have h3 : y.reverse.getLast? = y.head? := by
        rw [List.getLast?_reverse]
      rw [← hwe, h1, h2, h3] at hc
      exact head?_dropWhile_false p s c (by rw [← hy]; exact hc)
  show ((w.reverse.dropWhile p).reverse.dropWhile p).reverse = w.reverse
  rw [hleft, hidem]

/-- The trimmed string sits inside the original: `s = u ++ trim s ++ v`. -/
theorem goTrimSpace_decomp (s : List Char) :
    ∃ u v, s = u ++ goTrimSpace s ++ v := by
  refine ⟨s.takeWhile goIsSpace,
    ((s.dropWhile goIsSpace).reverse.takeWhile goIsSpace).reverse, ?_⟩
  have h1 : s = s.takeWhile goIsSpace ++ s.dropWhile goIsSpace :=
    (List.takeWhile_append_dropWhile goIsSpace s).symm
  have h0 : (s.dropWhile goIsSpace).reverse
      = (s.dropWhile goIsSpace).reverse.takeWhile goIsSpace
        ++ (s.dropWhile goIsSpace).reverse.dropWhile goIsSpace :=
    (List.takeWhile_append_dropWhile goIsSpace _).symm
  have h2 := congrArg List.reverse h0
  rw [List.reverse_reverse, List.reverse_append] at h2
  conv_lhs => rw [h1, h2]
  simp [goTrimSpace, List.append_assoc]

theorem hasOccur_goTrimSpace_false {sep : List Char} (hsep : sep ≠ [])
    {s : List Char} (h : hasOccur sep s = false) :
    hasOccur sep (goTrimSpace s) = false := by
  cases hocc : hasOccur sep (goTrimSpace s) with
  | false => rfl
  | true =>
    exfalso
    obtain ⟨x, y, hxy⟩ := (hasOccur_iff_parts hsep _).mp hocc
    obtain ⟨u, v, huv⟩ := goTrimSpace_decomp s
    have : s = (u ++ x) ++ sep ++ (y ++ v) := by
      rw [huv, hxy]; simp
    have : hasOccur sep s = true :=
      (hasOccur_iff_parts hsep s).mpr ⟨u ++ x, y ++ v, this⟩
    rw [this] at h
    exact Bool.true_eq_false.mp h

theorem mem_takeWhile_pred (p : Char → Bool) :
    ∀ (l : List Char) (c : Char), c ∈ l.takeWhile p → p c = true := by
  intro l
  induction l with
  | nil => intro c h; simp at h
  | cons x rest ih =>
    intro c h
    by_cases hx : p x = true
    · rw [List.takeWhile_cons, if_pos hx] at h
      rcases List.mem_cons.mp h with rfl | h
      · exact hx
      · exact ih c h
    · rw [List.takeWhile_cons, if_neg hx] at h
      simp at h

theorem goTrimSpace_eq_nil_iff (s : List Char) :
    goTrimSpace s = [] ↔ ∀ c ∈ s, goIsSpace c = true := by
  set p := goIsSpace with hp
  set y := s.dropWhile p with hy
  have h1 : goTrimSpace s = [] ↔ y.reverse.dropWhile p = [] := by
    simp [goTrimSpace, ← hy]
  rw [h1, List.dropWhile_eq_nil_iff]
  constructor
  · intro h c hc
    rcases List.mem_append.mp (by
        rw [hy, List.takeWhile_append_dropWhile p s]; exact hc :
        c ∈ s.takeWhile p ++ y) with hc' | hc'
    · exact mem_takeWhile_pred p s c hc'
    · exact h c (by simpa using hc')
  · intro h c hc
    have : c ∈ y := by simpa using hc
    have : c ∈ s := by
      have hsub : y.Sublist s := by
        rw [hy]; exact List.dropWhile_sublist p
      exact hsub.mem this
    exact h c this

/-! ## SHA-256 (`crypto/sha256`) and hex encoding (`encoding/hex`)

Machine words are `Nat` reduced mod `2 ^ 32` explicitly. -/

def add32 (a b : Nat) : Nat := (a + b) % 4294967296

def rotr32 (x k : Nat) : Nat := ((x >>> k) ||| (x <<< (32 - k))) % 4294967296

def shaCh (x y z : Nat) : Nat := (x &&& y) ^^^ ((x ^^^ 4294967295) &&& z)

def shaMaj (x y z : Nat) : Nat := (x &&& y) ^^^ (x &&& z) ^^^ (y &&& z)

def bigSigma0 (x : Nat) : Nat := rotr32 x 2 ^^^ rotr32 x 13 ^^^ rotr32 x 22

def bigSigma1 (x : Nat) : Nat := rotr32 x 6 ^^^ rotr32 x 11 ^^^ rotr32 x 25

def smallSigma0 (x : Nat) : Nat := rotr32 x 7 ^^^ rotr32 x 18 ^^^ (x >>> 3)

def smallSigma1 (x : Nat) : Nat := rotr32 x 17 ^^^ rotr32 x 19 ^^^ (x >>> 10)

/-- The SHA-256 round constants. -/
def shaK : List Nat :=
  [1116352408, 1899447441, 3049323471, 3921009573,
   961987163, 1508970993, 2453635748, 2870763221,
   3624381080, 310598401, 607225278, 1426881987,
   1925078388, 2162078206, 2614888103, 3248222580,
   3835390401, 4022224774, 264347078, 604807628,
   770255983, 1249150122, 1555081692, 1996064986,
   2554220882, 2821834349, 2952996808, 3210313671,
   3336571891, 3584528711, 113926993, 338241895,
   666307205, 773529912, 1294757372, 1396182291,
   1695183700, 1986661051, 2177026350, 2456956037,
   2730485921, 2820302411, 3259730800, 3345764771,
   3516065817, 3600352804, 4094571909, 275423344,
   430227734, 506948616, 659060556, 883997877,
   958139571, 1322822218, 1537002063, 1747873779,
   1955562222, 2024104815, 2227730452, 2361852424,
   2428436474, 2756734187, 3204031479, 3329325298]

/-- Working state of the compression function. -/
structure ShaState where
  a : Nat
  b : Nat
  c : Nat
  d : Nat
  e : Nat
  f : Nat
  g : Nat
  h : Nat
deriving DecidableEq

def shaH0 : ShaState :=
  ⟨1779033703, 3144134277, 1013904242, 2773480762,
   1359893119, 2600822924, 528734635, 1541459225⟩

def shaRound (st : ShaState) (wk : Nat × Nat) : ShaState :=
  let t1 := add32 st.h (add32 (bigSigma1 st.e) (add32 (shaCh st.e st.f st.g) (add32 wk.2 wk.1)))
  let t2 := add32 (bigSigma0 st.a) (shaMaj st.a st.b st.c)
  ⟨add32 t1 t2, st.a, st.b, st.c, add32 st.d t1, st.e, st.f, st.g⟩

/-- One step of the message-schedule extension: append word `t` computed from
words `t-2`, `t-7`, `t-15`, `t-16`. -/
def extendStep (l : List Nat) : List Nat :=
  let n := l.length
  l ++ [add32 (add32 (smallSigma1 (l.getD (n - 2) 0)) (l.getD (n - 7) 0))
          (add32 (smallSigma0 (l.getD (n - 15) 0)) (l.getD (n - 16) 0))]

def extendN : Nat → List Nat → List Nat
  | 0, l => l
  | k + 1, l => extendN k (extendStep l)

def compressBlock (st : ShaState) (block : List Nat) : ShaState :=
  let ws := extendN 48 block
  let r := (ws.zip shaK).foldl shaRound st
  ⟨add32 st.a r.a, add32 st.b r.b, add32 st.c r.c, add32 st.d r.d,
   add32 st.e r.e, add32 st.f r.f, add32 st.g r.g, add32 st.h r.h⟩

/-- Big-endian 64-bit length in bytes. -/
def lenBytes (n : Nat) : List Nat :=
  [(n >>> 56) % 256, (n >>> 48) % 256, (n >>> 40) % 256, (n >>> 32) % 256,
   (n >>> 24) % 256, (n >>> 16) % 256, (n >>> 8) % 256, n % 256]

/-- SHA-256 padding: append `0x80`, zeros to 56 mod 64, then the bit length. -/
def shaPad (msg : List Nat) : List Nat :=
  let len := msg.length
  let zeros := (64 - ((len + 9) % 64)) % 64
  msg ++ 128 :: (List.replicate zeros 0 ++ lenBytes (8 * len))

/-- Big-endian 32-bit words from bytes. -/
def toWords : List Nat → List Nat
  | b0 :: b1 :: b2 :: b3 :: rest =>
       ((((b0 <<< 8) ||| b1) <<< 8 ||| b2) <<< 8 ||| b3) :: toWords rest
  | _ => []

/-- Chunk a word list into 16-word blocks (fuel-driven, fuel = list length). -/
def chunk16Fuel : Nat → List Nat → List (List Nat)
  | 0, _ => []
  | _ + 1, [] => []
  | f + 1, l => l.take 16 :: chunk16Fuel f (l.drop 16)

def sha256Words (bytes : List Nat) : ShaState :=
  let ws := toWords (shaPad bytes)
  (chunk16Fuel ws.length ws).foldl compressBlock shaH0

def hexCharList : List Char := "0123456789abcdef".toList

def hexChar (n : Nat) : Char := hexCharList.getD (n % 16) '0'

/-- Lowercase hex of one 32-bit word, exactly 8 digits (as `hex.EncodeToString`
renders the 4 big-endian bytes of the word). -/
def toHex8 (n : Nat) : List Char :=
  [hexChar (n / 268435456), hexChar (n / 16777216), hexChar (n / 1048576),
   hexChar (n / 65536), hexChar (n / 4096), hexChar (n / 256), hexChar (n / 16), hexChar n]

def shaStateHex (st : ShaState) : List Char :=
  toHex8 st.a ++ toHex8 st.b ++ toHex8 st.c ++ toHex8 st.d ++
  toHex8 st.e ++ toHex8 st.f ++ toHex8 st.g ++ toHex8 st.h

/-- UTF-8 encoding of one scalar value (Go `[]byte` conversion of a string). -/
def utf8Char (c : Char) : List Nat :=
  let n := c.toNat
  if n < 128 then [n]
  else if n < 2048 then [192 ||| (n >>> 6), 128 ||| (n &&& 63)]
  else if n < 65536 then
    [224 ||| (n >>> 12), 128 ||| ((n >>> 6) &&& 63), 128 ||| (n &&& 63)]
  else
    [240 ||| (n >>> 18), 128 ||| ((n >>> 12) &&& 63),
     128 ||| ((n >>> 6) &&& 63), 128 ||| (n &&& 63)]

def utf8Bytes (s : List Char) : List Nat := (s.map utf8Char).flatten

/-- `computeHash` from `apply_migrations.go`: SHA-256 of the string's bytes,
hex encoded ("SHA-256 same as Supabase"). -/
def computeHash (s : List Char) : List Char := shaStateHex (sha256Words (utf8Bytes s))

/-! ## The migration loader (`loadLocalMigrations`) -/

/-- The statement breakpoint marker ("Supabase behavior"). -/
def marker : List Char := "-- statement-breakpoint".toList

/-- Lines 68–76 of `apply_migrations.go`: split the raw content on the marker
with `strings.Split`, `strings.TrimSpace` each chunk, keep non-empty chunks. -/
def splitStatements (raw : List Char) : List (List Char) :=
  ((splitGo marker raw).map goTrimSpace).filter (fun stmt => !stmt.isEmpty)

/-- The `Migration` struct of `apply_migrations.go`. -/
structure Migration where
  Version : List Char
  Name : List Char
  Raw : List Char
  Statements : List (List Char)
  Hash : List Char
deriving DecidableEq

/-- Lines 78–84 of `apply_migrations.go`: the `Migration` literal appended for
one file, hashing the raw unsplit content. -/
def mkMigration (version name raw : List Char) : Migration :=
  ⟨version, name, raw, splitStatements raw, computeHash raw⟩

/-- Lines 60–66: `strings.SplitN(f.Name(), "_", 2)`; `nil` iff the result does
not have exactly two parts (the `invalid migration name` error). -/
def parseMigrationFilename (fname : List Char) : Option (List Char × List Char) :=
  match splitN2 ['_'] fname with
  | [v, nm] => some (v, nm)
  | _ => none

/-- One entry of the migrations directory as returned by `os.ReadDir`,
with the file content it points to (`os.ReadFile`). -/
structure DirEntry where
  name : List Char
  isDir : Bool
  content : List Char
deriving DecidableEq

/-- The directory scan loop of `loadLocalMigrations` (lines 47–85): skip
directories and non-`.sql` names, fail on a filename without the separator,
otherwise collect the parsed migrations in directory order. -/
def loadEntries : List DirEntry → Except (List Char) (List Migration)
  | [] => .ok []
  | e :: rest =>
    if e.isDir || !((".sql".toList).isSuffixOf e.name) then loadEntries rest
    else
      match parseMigrationFilename e.name with
      | none => .error ("invalid migration name: ".toList ++ e.name)
      | some (v, nm) =>
        match loadEntries rest with
        | .error msg => .error msg
        | .ok ms => .ok (mkMigration v nm e.content :: ms)

/-- `loadLocalMigrations` (lines 39–93).  The final `sort.Slice` call is a Go
standard-library routine outside this repository; the loader is parametrized
by the permutation it produces so that no claim silently depends on stdlib
internals. -/
def loadLocalMigrations (sortFn : List Migration → List Migration)
    (entries : List DirEntry) : Except (List Char) (List Migration) :=
  match loadEntries entries with
  | .error msg => .error msg
  | .ok ms => .ok (sortFn ms)

/-! ## The ledger array encoder (`formatPostgresArray`, lines 256–267) -/

/-- The two `strings.ReplaceAll` passes: backslashes doubled first, then
double quotes escaped. -/
def pgEscape (v : List Char) : List Char :=
  replAll '"' ['\\', '"'] (replAll '\\' ['\\', '\\'] v)

/-- `formatPostgresArray`: empty array literal for an empty slice, otherwise
each element escaped, quoted, comma-joined and wrapped in braces. -/
def formatPostgresArray (arr : List (List Char)) : List Char :=
  match arr with
  | [] => ['{', '}']
  | _ => '{' :: (goJoin [','] (arr.map (fun v => '"' :: (pgEscape v ++ ['"']))) ++ ['}'])

/-! ## The apply loop of `main` (lines 198–251)

The SQL engine is abstract: a world type `W` with a partial statement
interpreter.  A transaction is pending state that becomes durable only at
commit, which is the documented contract of `database/sql` transactions used
by the program (`BeginTx` / `ExecContext` / `Rollback` / `Commit`). -/

/-- One row of `supabase_migrations.schema_migrations` as inserted by `main`
(lines 223–241): the `statements` column is sent as the text-array literal,
`created_by` is the fixed tool marker, `idempotency_key` is SQL `NULL`. -/
structure LedgerRow where
  version : List Char
  name : List Char
  hash : List Char
  statements : List Char
  created_by : List Char
  idempotency_key : Option (List Char)
deriving DecidableEq

/-- The insert values of lines 225–237 for one migration. -/
def mkRow (m : Migration) : LedgerRow :=
  ⟨m.Version, m.Name, m.Hash, formatPostgresArray m.Statements,
   "supabase-direct-migrate".toList, none⟩

/-- Durable database state: the abstract world affected by SQL statements and
the ledger table contents. -/
structure DBState (W : Type) where
  world : W
  ledger : List LedgerRow
deriving DecidableEq

/-- The abstract SQL engine: statement execution may fail (returning `none`),
and the insert and the commit may also fail (uniqueness violations, lost
connections, ...). -/
structure SqlEnv (W : Type) where
  exec : W → List Char → Option W
  insertFails : DBState W → LedgerRow → Bool
  commitFails : DBState W → Bool

/-- Console-visible outcome of one iteration of the apply loop. -/
inductive ApplyEvent where
  | skipped (v : List Char)
  | applied (v : List Char)
  | failedStmt (v stmt : List Char)
  | failedInsert (v : List Char)
  | failedCommit (v : List Char)
deriving DecidableEq

/-- Lines 215–221: execute the migration's statements in order inside the
transaction, stopping at the first failing statement. -/
def execStmts {W : Type} (env : SqlEnv W) : W → List (List Char) → Except (List Char) W
  | w, [] => .ok w
  | w, stmt :: rest =>
    match env.exec w stmt with
    | none => .error stmt
    | some w2 => execStmts env w2 rest

/-- Lines 207–250, one pending migration: begin a transaction, run the
statements, insert the ledger row, commit.  `none` means the transaction was
rolled back (or the commit failed), so the durable state is unchanged. -/
def runOne {W : Type} (env : SqlEnv W) (db : DBState W) (m : Migration) :
    Option (DBState W) × ApplyEvent :=
  match execStmts env db.world m.Statements with
  | .error stmt => (none, .failedStmt m.Version stmt)
  | .ok w2 =>
    let row := mkRow m
    if env.insertFails ⟨w2, db.ledger⟩ row then (none, .failedInsert m.Version)
    else
      let db2 : DBState W := ⟨w2, db.ledger ++ [row]⟩
      if env.commitFails db2 then (none, .failedCommit m.Version)
      else (some db2, .applied m.Version)

/-- Lines 179–187: the `applied` map read from the ledger, `version → hash`,
modelled as an association list with leftmost lookup. -/
def lookupVersion (applied : List (List Char × List Char)) (v : List Char) :
    Option (List Char) :=
  (applied.find? (fun p => p.1 == v)).map (fun p => p.2)

/-- Lines 198–251: iterate over the (sorted) local migrations; skip a
migration whose version is in the `applied` map, otherwise apply it; any
failure panics, terminating the whole run (no later migration is visited). -/
def runAll {W : Type} (env : SqlEnv W) (applied : List (List Char × List Char)) :
    DBState W → List Migration → DBState W × List ApplyEvent
  | db, [] => (db, [])
  | db, m :: rest =>
    if (lookupVersion applied m.Version).isSome then
      let r := runAll env applied db rest
      (r.1, .skipped m.Version :: r.2)
    else
      match runOne env db m with
      | (some db2, ev) =>
        let r := runAll env applied db2 rest
        (r.1, ev :: r.2)
      | (none, ev) => (db, [ev])

/-- The ideal atomic semantics of one migration: all statements and the
ledger row land together, or nothing lands. -/
def atomicApply {W : Type} (env : SqlEnv W) (db : DBState W) (m : Migration) :
    Option (DBState W) :=
  match execStmts env db.world m.Statements with
  | .error _ => none
  | .ok w2 =>
    let row := mkRow m
    if env.insertFails ⟨w2, db.ledger⟩ row then none
    else
      let db2 : DBState W := ⟨w2, db.ledger ++ [row]⟩
      if env.commitFails db2 then none else some db2

/-- Sequential composition of the atomic semantics. -/
def foldAtomic {W : Type} (env : SqlEnv W) : DBState W → List Migration → Option (DBState W)
  | db, [] => some db
  | db, m :: rest =>
    match atomicApply env db m with
    | none => none
    | some db2 => foldAtomic env db2 rest

/-- Versions reported as newly applied, in order. -/
def appliedVersions : List ApplyEvent → List (List Char)
  | [] => []
  | .applied v :: evs => v :: appliedVersions evs
  | _ :: evs => appliedVersions evs

/-- Versions of migrations whose statement, insert or commit failed, in order. -/
def failedVersions : List ApplyEvent → List (List Char)
  | [] => []
  | .failedStmt v _ :: evs => v :: failedVersions evs
  | .failedInsert v :: evs => v :: failedVersions evs
  | .failedCommit v :: evs => v :: failedVersions evs
  | _ :: evs => failedVersions evs

/-- The pending migrations: local order restricted to versions absent from
the applied map. -/
def pendingOf (applied : List (List Char × List Char)) (ms : List Migration) :
    List Migration :=
  ms.filter (fun m => !(lookupVersion applied m.Version).isSome)

/-! ## Spec-side definitions used for refinement comparisons -/

/-- A line whose trimmed content is exactly the breakpoint marker. -/
def isBreakLine (l : List Char) : Bool := goTrimSpace l == marker

/-- Group a line list into chunks separated by breakpoint lines. -/
def groupLines : List (List Char) → List (List (List Char))
  | [] => [[]]
  | l :: rest =>
    let r := groupLines rest
    if isBreakLine l then [] :: r
    else
      match r with
      | [] => [[l]]
      | g :: gs => (l :: g) :: gs

/-- Modelled from the spec: "splitting the content at every line whose trimmed
content is exactly the literal marker `-- statement-breakpoint` (an occurrence
of the marker text that is not a whole line does not split), then trimming
each chunk and discarding chunks that are empty after trimming".  Lines are
the newline-separated pieces of the content; chunks are rejoined with
newlines. -/
def specSplitStatements (raw : List Char) : List (List Char) :=
  ((groupLines (splitGo ['\n'] raw)).map
      (fun g => goTrimSpace (goJoin ['\n'] g))).filter (fun stmt => !stmt.isEmpty)

/-- Modelled from the spec: the decoder half of "decoding the persisted
representation ... back into a sequence of strings" — PostgreSQL's text-array
literal input syntax restricted to one dimension: a brace-wrapped,
comma-separated element list, where a double-quoted element reads backslash as
escaping the following character, and an unquoted element extends to the next
comma or closing brace.  Body of one double-quoted element; returns the
element and the rest after the closing quote. -/
def parseQuotedBody : List Char → Option (List Char × List Char)
  | [] => none
  | c :: rest =>
    if c = '\\' then
      match rest with
      | [] => none
      | x :: rest2 => (parseQuotedBody rest2).map (fun p => (x :: p.1, p.2))
    else if c = '"' then some ([], rest)
    else (parseQuotedBody rest).map (fun p => (c :: p.1, p.2))

/-- Unquoted element: read up to the next `,` or `}`. -/
def parseUnquoted : List Char → List Char × List Char
  | [] => ([], [])
  | c :: rest =>
    if c = ',' ∨ c = '}' then ([], c :: rest)
    else
      let p := parseUnquoted rest
      (c :: p.1, p.2)

/-- Comma-separated elements followed by the closing brace (fuel-driven; the
element count never exceeds the character count). -/
def parseElemsFuel : Nat → List Char → Option (List (List Char))
  | 0, _ => none
  | fuel + 1, s =>
    match s with
    | [] => none
    | c :: rest =>
      match (if c = '"' then parseQuotedBody rest else some (parseUnquoted (c :: rest))) with
      | none => none
      | some (e, r) =>
        match r with
        | [] => none
        | r0 :: r2 =>
          if r0 = ',' then (parseElemsFuel fuel r2).map (fun l => e :: l)
          else if r0 = '}' then (if r2 = [] then some [e] else none)
          else none

/-- Modelled from the spec: decode a one-dimensional Postgres text-array
literal into its list of element strings. -/
def parsePostgresArray (s : List Char) : Option (List (List Char)) :=
  match s with
  | [] => none
  | c :: rest =>
    if c = '{' then
      if rest = ['}'] then some []
      else parseElemsFuel rest.length rest
    else none

/-! ## Lemmas about the apply loop -/

theorem runOne_fst {W : Type} (env : SqlEnv W) (db : DBState W) (m : Migration) :
    (runOne env db m).1 = atomicApply env db m := by
  simp only [runOne, atomicApply]
  cases hexec : execStmts env db.world m.Statements with
  | error stmt => rfl
  | ok w2 =>
    by_cases hins : env.insertFails ⟨w2, db.ledger⟩ (mkRow m) = true
    · simp [hins]
    · simp only [Bool.not_eq_true] at hins
      by_cases hcom : env.commitFails ⟨w2, db.ledger ++ [mkRow m]⟩ = true
      · simp [hins, hcom]
      · simp only [Bool.not_eq_true] at hcom
        simp [hins, hcom]

theorem runOne_snd_applied {W : Type} {env : SqlEnv W} {db db2 : DBState W} {m : Migration}
    (h : atomicApply env db m = some db2) :
    runOne env db m = (some db2, ApplyEvent.applied m.Version) := by
  simp only [runOne]
  simp only [atomicApply] at h
  cases hexec : execStmts env db.world m.Statements with
  | error stmt => rw [hexec] at h; simp at h
  | ok w2 =>
    rw [hexec] at h
    by_cases hins : env.insertFails ⟨w2, db.ledger⟩ (mkRow m) = true
    · simp [hins] at h
    · simp only [Bool.not_eq_true] at hins
      by_cases hcom : env.commitFails ⟨w2, db.ledger ++ [mkRow m]⟩ = true
      · simp [hins, hcom] at h
      · simp only [Bool.not_eq_true] at hcom
        simp only [hins, hcom] at h ⊢
        simp at h
        simp [h]

theorem runOne_snd_failed {W : Type} {env : SqlEnv W} {db : DBState W} {m : Migration}
    (h : atomicApply env db m = none) :
    (runOne env db m).1 = none ∧
      failedVersions [(runOne env db m).2] = [m.Version] ∧
      appliedVersions [(runOne env db m).2] = [] := by
  simp only [runOne]
  simp only [atomicApply] at h
  cases hexec : execStmts env db.world m.Statements with
  | error stmt => simp [failedVersions, appliedVersions]
  | ok w2 =>
    rw [hexec] at h
    by_cases hins : env.insertFails ⟨w2, db.ledger⟩ (mkRow m) = true
    · simp [hins, failedVersions, appliedVersions]
    · simp only [Bool.not_eq_true] at hins
      by_cases hcom : env.commitFails ⟨w2, db.ledger ++ [mkRow m]⟩ = true
      · simp [hins, hcom, failedVersions, appliedVersions]
      · simp only [Bool.not_eq_true] at hcom
        simp [hins, hcom] at h

theorem runAll_nil {W : Type} (env : SqlEnv W) (applied : List (List Char × List Char))
    (db : DBState W) : runAll env applied db [] = (db, []) := rfl

theorem runAll_cons_skip {W : Type} {env : SqlEnv W} {applied : List (List Char × List Char)}
    {db : DBState W} {m : Migration} {rest : List Migration}
    (h : (lookupVersion applied m.Version).isSome = true) :
    runAll env applied db (m :: rest) =
      ((runAll env applied db rest).1,
        ApplyEvent.skipped m.Version :: (runAll env applied db rest).2) := by
  simp [runAll, h]

theorem runAll_cons_app {W : Type} {env : SqlEnv W} {applied : List (List Char × List Char)}
    {db db2 : DBState W} {m : Migration} {rest : List Migration} {ev : ApplyEvent}
    (h : (lookupVersion applied m.Version).isSome = false)
    (h2 : runOne env db m = (some db2, ev)) :
    runAll env applied db (m :: rest) =
      ((runAll env applied db2 rest).1, ev :: (runAll env applied db2 rest).2) := by
  simp [runAll, h, h2]

theorem runAll_cons_fail {W : Type} {env : SqlEnv W} {applied : List (List Char × List Char)}
    {db : DBState W} {m : Migration} {rest : List Migration} {ev : ApplyEvent}
    (h : (lookupVersion applied m.Version).isSome = false)
    (h2 : runOne env db m = (none, ev)) :
    runAll env applied db (m :: rest) = (db, [ev]) := by
  simp [runAll, h, h2]

theorem pendingOf_cons_skip {applied : List (List Char × List Char)} {m : Migration}
    {rest : List Migration} (h : (lookupVersion applied m.Version).isSome = true) :
    pendingOf applied (m :: rest) = pendingOf applied rest := by
  cases hx : lookupVersion applied m.Version with
  | none => rw [hx] at h; simp at h
  | some w => simp [pendingOf, List.filter_cons, hx]

theorem pendingOf_cons_pending {applied : List (List Char × List Char)} {m : Migration}
    {rest : List Migration} (h : (lookupVersion applied m.Version).isSome = false) :
    pendingOf applied (m :: rest) = m :: pendingOf applied rest := by
  cases hx : lookupVersion applied m.Version with
  | none => simp [pendingOf, List.filter_cons, hx]
  | some w => rw [hx] at h; simp at h

/-- C1: for every pending migration, application is atomic and fail-fast: the
durable state after the run is the atomic composition of a prefix of the
pending migrations (each contributing all its statement effects and exactly
its ledger row together, via `atomicApply`); if no failure is reported the
whole pending list is applied, and if a failure is reported it concerns the
next pending migration after that prefix — whose atomic application from the
final durable state fails, i.e. none of its effects or ledger row persist —
and no later-versioned pending migration is attempted. -/
theorem applier_atomic_fail_fast {W : Type} (env : SqlEnv W)
    (applied : List (List Char × List Char)) (db : DBState W) (ms : List Migration) :
    ∃ k, k ≤ (pendingOf applied ms).length ∧
      foldAtomic env db ((pendingOf applied ms).take k) = some (runAll env applied db ms).1 ∧
      appliedVersions (runAll env applied db ms).2
        = ((pendingOf applied ms).take k).map (fun m => m.Version) ∧
      ((failedVersions (runAll env applied db ms).2 = [] ∧
          k = (pendingOf applied ms).length) ∨
       (∃ m2 rest2, (pendingOf applied ms).drop k = m2 :: rest2 ∧
          failedVersions (runAll env applied db ms).2 = [m2.Version] ∧
          atomicApply env (runAll env applied db ms).1 m2 = none)) := by
  induction ms generalizing db with
  | nil =>
    exact ⟨0, by simp [pendingOf], by simp [pendingOf, foldAtomic, runAll_nil],
      by simp [pendingOf, runAll_nil, appliedVersions],
      Or.inl ⟨by simp [runAll_nil, failedVersions], by simp [pendingOf]⟩⟩
  | cons m rest ih =>
    cases hlk : (lookupVersion applied m.Version).isSome with
    | true =>
      obtain ⟨k, hk, hfold, happ, hdisj⟩ := ih db
      refine ⟨k, ?_, ?_, ?_, ?_⟩
      · rw [pendingOf_cons_skip hlk]; exact hk
      · rw [pendingOf_cons_skip hlk, runAll_cons_skip hlk]
        exact hfold
      · rw [pendingOf_cons_skip hlk, runAll_cons_skip hlk]
        simpa [appliedVersions] using happ
      · rw [pendingOf_cons_skip hlk, runAll_cons_skip hlk]
        rcases hdisj with ⟨hf, hkeq⟩ | ⟨m2, rest2, hdrop, hfail, hatom⟩
        · exact Or.inl ⟨by simpa [failedVersions] using hf, hkeq⟩
        · exact Or.inr ⟨m2, rest2, hdrop, by simpa [failedVersions] using hfail, hatom⟩
    | false =>
      cases hat : atomicApply env db m with
      | some db2 =>
        have hrun : runOne env db m = (some db2, ApplyEvent.applied m.Version) :=
          runOne_snd_applied hat
        obtain ⟨k, hk, hfold, happ, hdisj⟩ := ih db2
        refine ⟨k + 1, ?_, ?_, ?_, ?_⟩
        · rw [pendingOf_cons_pending hlk]
          simpa using hk
        · rw [pendingOf_cons_pending hlk, runAll_cons_app hlk hrun]
          simpa [foldAtomic, hat] using hfold
        · rw [pendingOf_cons_pending hlk, runAll_cons_app hlk hrun]
          simpa [appliedVersions] using happ
        · rw [pendingOf_cons_pending hlk, runAll_cons_app hlk hrun]
          rcases hdisj with ⟨hf, hkeq⟩ | ⟨m2, rest2, hdrop, hfail, hatom⟩
          · exact Or.inl ⟨by simpa [failedVersions] using hf, by simp [hkeq]⟩
          · exact Or.inr ⟨m2, rest2, by simpa using hdrop,
              by simpa [failedVersions] using hfail, hatom⟩
      | none =>
        have h3 := runOne_snd_failed hat
        have hro : runOne env db m = (none, (runOne env db m).2) := by
          rw [← h3.1]
        have hrw : runAll env applied db (m :: rest) = (db, [(runOne env db m).2]) :=
          runAll_cons_fail hlk hro
        refine ⟨0, by simp, ?_, ?_, ?_⟩
        · rw [hrw]
          simp [foldAtomic]
        · rw [hrw, pendingOf_cons_pending hlk]
          simpa using h3.2.2
        · refine Or.inr ⟨m, pendingOf applied rest, ?_, ?_, ?_⟩
          · rw [pendingOf_cons_pending hlk]
            simp
          · rw [hrw]
            exact h3.2.1
          · rw [hrw]
            exact hat

theorem lookupVersion_isSome_of_keys_eq :
    ∀ (a a' : List (List Char × List Char)), a.map Prod.fst = a'.map Prod.fst →
      ∀ v, (lookupVersion a v).isSome = (lookupVersion a' v).isSome := by
  intro a
  induction a with
  | nil =>
    intro a' h v
    have : a' = [] := by
      cases a' with
      | nil => rfl
      | cons p ps => simp at h
    subst this
    rfl
  | cons p ps ih =>
    intro a' h v
    cases a' with
    | nil => simp at h
    | cons q qs =>
      simp only [List.map_cons, List.cons.injEq] at h
      simp only [lookupVersion, List.find?_cons]
      cases hb : (p.1 == v) with
      | true =>
        have : (q.1 == v) = true := by rw [← h.1]; exact hb
        rw [this]
        rfl
      | false =>
        have : (q.1 == v) = false := by rw [← h.1]; exact hb
        rw [this]
        exact ih qs h.2 v

theorem runAll_keys_eq {W : Type} (env : SqlEnv W) (ms : List Migration) :
    ∀ (db : DBState W) (a a' : List (List Char × List Char)),
      a.map Prod.fst = a'.map Prod.fst →
      runAll env a db ms = runAll env a' db ms := by
  induction ms with
  | nil => intro db a a' _; rfl
  | cons m rest ih =>
    intro db a a' h
    have hiso := lookupVersion_isSome_of_keys_eq a a' h m.Version
    cases hlk : (lookupVersion a m.Version).isSome with
    | true =>
      rw [runAll_cons_skip hlk, runAll_cons_skip (by rw [← hiso]; exact hlk),
        ih db a a' h]
    | false =>
      have hlk' : (lookupVersion a' m.Version).isSome = false := by
        rw [← hiso]; exact hlk
      cases hro : runOne env db m with
      | mk o ev =>
        cases o with
        | none => rw [runAll_cons_fail hlk hro, runAll_cons_fail hlk' hro]
        | some db2 =>
          rw [runAll_cons_app hlk hro, runAll_cons_app hlk' hro, ih db2 a a' h]

theorem runAll_success_trace {W : Type} (env : SqlEnv W) (ms : List Migration) :
    ∀ (db : DBState W) (applied : List (List Char × List Char)),
      failedVersions (runAll env applied db ms).2 = [] →
      (runAll env applied db ms).2 = ms.map (fun m =>
        if (lookupVersion applied m.Version).isSome then ApplyEvent.skipped m.Version
        else ApplyEvent.applied m.Version) := by
  induction ms with
  | nil => intro db applied _; rfl
  | cons m rest ih =>
    intro db applied h
    cases hlk : (lookupVersion applied m.Version).isSome with
    | true =>
      rw [runAll_cons_skip hlk] at h ⊢
      simp only [failedVersions] at h
      simp only [List.map_cons, hlk, if_true]
      rw [ih db applied h]
    | false =>
      cases hat : atomicApply env db m with
      | some db2 =>
        have hrun : runOne env db m = (some db2, ApplyEvent.applied m.Version) :=
          runOne_snd_applied hat
        rw [runAll_cons_app hlk hrun] at h ⊢
        simp only [failedVersions] at h
        simp only [List.map_cons, hlk, if_false, Bool.false_eq_true]
        rw [ih db2 applied h]
      | none =>
        have h3 := runOne_snd_failed hat
        have hro : runOne env db m = (none, (runOne env db m).2) := by
          rw [← h3.1]
        have hrw : runAll env applied db (m :: rest) = (db, [(runOne env db m).2]) :=
          runAll_cons_fail hlk hro
        rw [hrw] at h
        rw [h3.2.1] at h
        simp at h

theorem runAll_applied_eq_pending {W : Type} (env : SqlEnv W) (ms : List Migration) :
    ∀ (db : DBState W) (applied : List (List Char × List Char)),
      failedVersions (runAll env applied db ms).2 = [] →
      appliedVersions (runAll env applied db ms).2
        = (pendingOf applied ms).map (fun m => m.Version) := by
  induction ms with
  | nil => intro db applied _; rfl
  | cons m rest ih =>
    intro db applied h
    cases hlk : (lookupVersion applied m.Version).isSome with
    | true =>
      rw [runAll_cons_skip hlk] at h ⊢
      rw [pendingOf_cons_skip hlk]
      simp only [failedVersions] at h
      simp only [appliedVersions]
      exact ih db applied h
    | false =>
      cases hat : atomicApply env db m with
      | some db2 =>
        have hrun : runOne env db m = (some db2, ApplyEvent.applied m.Version) :=
          runOne_snd_applied hat
        rw [runAll_cons_app hlk hrun] at h ⊢
        rw [pendingOf_cons_pending hlk]
        simp only [failedVersions] at h
        simp only [appliedVersions, List.map_cons]
        rw [ih db2 applied h]
      | none =>
        have h3 := runOne_snd_failed hat
        have hro : runOne env db m = (none, (runOne env db m).2) := by
          rw [← h3.1]
        have hrw : runAll env applied db (m :: rest) = (db, [(runOne env db m).2]) :=
          runAll_cons_fail hlk hro
        rw [hrw] at h
        rw [h3.2.1] at h
        simp at h

/-- C2: what gets applied is decided purely by version presence in the applied
map, in the original order.  First conjunct: the run is invariant under any
change of the stored hashes (only the version keys matter); second conjunct:
on a failure-free run the loop visits every local migration in order, skipping
exactly those whose version is present, and the applied versions are exactly
the pending subsequence in its original order. -/
theorem reconciler_by_version_presence {W : Type} (env : SqlEnv W)
    (db : DBState W) (ms : List Migration) :
    (∀ applied applied' : List (List Char × List Char),
        applied.map Prod.fst = applied'.map Prod.fst →
        runAll env applied db ms = runAll env applied' db ms)
    ∧ (∀ applied : List (List Char × List Char),
        failedVersions (runAll env applied db ms).2 = [] →
        (runAll env applied db ms).2 = ms.map (fun m =>
          if (lookupVersion applied m.Version).isSome then ApplyEvent.skipped m.Version
          else ApplyEvent.applied m.Version)
        ∧ appliedVersions (runAll env applied db ms).2
            = (pendingOf applied ms).map (fun m => m.Version)) :=
  ⟨fun a a' h => runAll_keys_eq env ms db a a' h,
   fun applied h =>
    ⟨runAll_success_trace env ms db applied h,
     runAll_applied_eq_pending env ms db applied h⟩⟩

/-! Concrete fixtures for witnesses: a free SQL engine over a statement log,
where nothing fails. -/

def listEnv : SqlEnv (List (List Char)) :=
  ⟨fun w s => some (w ++ [s]), fun _ _ => false, fun _ => false⟩

def db0 : DBState (List (List Char)) := ⟨[], []⟩

def migA : Migration :=
  mkMigration "20240101000000".toList "a.sql".toList "select 1".toList

def migB : Migration :=
  mkMigration "20240102000000".toList "b.sql".toList "select 2".toList

/-- Witness for C2 at a concrete input: changing only the stored hash does not
change the run, and with version `…01…` applied only `…02…` is newly applied. -/
theorem reconciler_by_version_presence_witness :
    runAll listEnv [("20240101000000".toList, "h1".toList)] db0 [migA, migB]
      = runAll listEnv [("20240101000000".toList, "h2".toList)] db0 [migA, migB]
    ∧ appliedVersions
        (runAll listEnv [("20240101000000".toList, "h1".toList)] db0 [migA, migB]).2
        = ["20240102000000".toList] := by
  constructor
  · exact (reconciler_by_version_presence listEnv db0 [migA, migB]).1 _ _ (by decide)
  · have h :=
      ((reconciler_by_version_presence listEnv db0 [migA, migB]).2
        [("20240101000000".toList, "h1".toList)] (by decide)).2
    rw [h]
    decide

theorem marker_ne_nil : marker ≠ [] := by decide

/-- A file whose content trims to empty is all whitespace, contains no
breakpoint marker, and yields zero statements. -/
theorem splitStatements_all_space {raw : List Char} (h : goTrimSpace raw = []) :
    splitStatements raw = [] := by
  have hall : ∀ c ∈ raw, goIsSpace c = true := (goTrimSpace_eq_nil_iff raw).mp h
  have hocc : hasOccur marker raw = false := by
    cases hx : hasOccur marker raw with
    | false => rfl
    | true =>
      exfalso
      obtain ⟨x, y, hxy⟩ := (hasOccur_iff_parts marker_ne_nil raw).mp hx
      have hm : '-' ∈ marker := by decide
      have hdash : '-' ∈ raw := by
        rw [hxy]
        exact List.mem_append.mpr (Or.inl (List.mem_append.mpr (Or.inr hm)))
      exact absurd (hall '-' hdash) (by decide)
  have hsplit : splitGo marker raw = [raw] := by
    have := splitGoAcc_no_occur raw [] hocc
    simpa [splitGo] using this
  simp [splitStatements, hsplit, h]

/-- C10: a pending migration whose content trims to empty executes no SQL but
still inserts one ledger row: the statements column is the empty-array literal,
`created_by` is the fixed tool string, the idempotency key is NULL; and on a
later run whose applied map contains the version, the migration is reported as
already applied (skipped). -/
theorem empty_migration_inserts_ledger_row {W : Type} (env : SqlEnv W)
    (applied : List (List Char × List Char)) (db : DBState W) (v n raw : List Char)
    (hraw : goTrimSpace raw = [])
    (hpend : lookupVersion applied v = none) :
    (mkMigration v n raw).Statements = []
    ∧ mkRow (mkMigration v n raw)
        = ⟨v, n, computeHash raw, ['{', '}'], "supabase-direct-migrate".toList, none⟩
    ∧ (env.insertFails ⟨db.world, db.ledger⟩ (mkRow (mkMigration v n raw)) = false →
        env.commitFails ⟨db.world, db.ledger ++ [mkRow (mkMigration v n raw)]⟩ = false →
        runAll env applied db [mkMigration v n raw]
          = (⟨db.world, db.ledger ++ [mkRow (mkMigration v n raw)]⟩,
             [ApplyEvent.applied v]))
    ∧ (∀ (applied2 : List (List Char × List Char)) (db2 : DBState W),
        (lookupVersion applied2 v).isSome = true →
        runAll env applied2 db2 [mkMigration v n raw] = (db2, [ApplyEvent.skipped v])) := by
  have hstmts : (mkMigration v n raw).Statements = [] := splitStatements_all_space hraw
  have hver : (mkMigration v n raw).Version = v := rfl
  refine ⟨hstmts, ?_, ?_, ?_⟩
  · show mkRow (mkMigration v n raw) = _
    simp only [mkRow, hstmts, formatPostgresArray]
    rfl
  · intro hins hcom
    have hlk : (lookupVersion applied (mkMigration v n raw).Version).isSome = false := by
      rw [hver, hpend]; rfl
    have hexec : execStmts env db.world (mkMigration v n raw).Statements = .ok db.world := by
      rw [hstmts]; rfl
    have hro : runOne env db (mkMigration v n raw)
        = (some ⟨db.world, db.ledger ++ [mkRow (mkMigration v n raw)]⟩,
           ApplyEvent.applied v) := by
      simp only [runOne, hexec]
      rw [if_neg (by simp [hins]), if_neg (by simp [hcom])]
      rfl

    rw [runAll_cons_app hlk hro]
    rfl
  · intro applied2 db2 h2
    have hlk : (lookupVersion applied2 (mkMigration v n raw).Version).isSome = true := by
      rw [hver]; exact h2
    rw [runAll_cons_skip hlk]
    rfl

/-- Witness for C10: a concrete whitespace-only migration is applied with an
empty-array ledger row, and skipped on the second run. -/
theorem empty_migration_inserts_ledger_row_witness :
    (mkMigration "20240103000000".toList "noop.sql".toList "  \n".toList).Statements = []
    ∧ runAll listEnv [] db0
        [mkMigration "20240103000000".toList "noop.sql".toList "  \n".toList]
        = (⟨db0.world, db0.ledger ++
              [mkRow (mkMigration "20240103000000".toList "noop.sql".toList "  \n".toList)]⟩,
           [ApplyEvent.applied "20240103000000".toList])
    ∧ runAll listEnv [("20240103000000".toList, "h".toList)] db0
        [mkMigration "20240103000000".toList "noop.sql".toList "  \n".toList]
        = (db0, [ApplyEvent.skipped "20240103000000".toList]) := by
  have h := empty_migration_inserts_ledger_row listEnv [] db0
    "20240103000000".toList "noop.sql".toList "  \n".toList (by decide) rfl
  exact ⟨h.1, h.2.2.1 rfl rfl,
    h.2.2.2 [("20240103000000".toList, "h".toList)] db0 (by decide)⟩

theorem marker_no_overlap :
    ∀ t, 0 < t → t < marker.length → (marker.drop t).isPrefixOf marker = false :=
  noSelfOverlap_spec (by decide)

theorem map_eq_self_of_mem {α : Type} (f : α → α) :
    ∀ (l : List α), (∀ x ∈ l, f x = x) → l.map f = l := by
  intro l
  induction l with
  | nil => intro _; rfl
  | cons x xs ih =>
    intro h
    simp only [List.map_cons]
    rw [h x (by simp), ih (fun y hy => h y (by simp [hy]))]

/-- Every produced statement is trimmed, non-empty and marker-free. -/
theorem mem_splitStatements {raw s : List Char} (h : s ∈ splitStatements raw) :
    goTrimSpace s = s ∧ s ≠ [] ∧ hasOccur marker s = false := by
  simp only [splitStatements, List.mem_filter, List.mem_map] at h
  obtain ⟨⟨c, hc, rfl⟩, hne⟩ := h
  refine ⟨goTrimSpace_idem c, ?_, ?_⟩
  · simpa using hne
  · exact hasOccur_goTrimSpace_false marker_ne_nil
      (splitGo_chunks_no_occur marker_ne_nil raw c hc)

/-- C9: splitting is idempotent — re-splitting the marker-rejoin of the
statement list yields the same statement list. -/
theorem statement_split_idempotent (raw : List Char) :
    splitStatements (goJoin marker (splitStatements raw)) = splitStatements raw := by
  have expand : ∀ x, splitStatements x
      = ((splitGo marker x).map goTrimSpace).filter (fun stmt => !stmt.isEmpty) :=
    fun _ => rfl
  cases hsts : splitStatements raw with
  | nil =>
    rfl
  | cons s ss =>
    rw [← hsts]
    have hne : splitStatements raw ≠ [] := by rw [hsts]; simp
    have hall : ∀ p ∈ splitStatements raw, hasOccur marker p = false :=
      fun p hp => (mem_splitStatements hp).2.2
    have hjoin : splitGo marker (goJoin marker (splitStatements raw))
        = splitStatements raw :=
      splitGo_join_eq marker_ne_nil marker_no_overlap _ hne hall
    rw [expand (goJoin marker (splitStatements raw)), hjoin,
      map_eq_self_of_mem _ _ (fun x hx => (mem_splitStatements hx).1)]
    exact List.filter_eq_self.mpr
      (fun a ha => by simpa using (mem_splitStatements ha).2.1)

/-- C3 counterexample: the code splits at every occurrence of the marker
substring, not only at lines whose trimmed content is exactly the marker.  On
`"a\n-- statement-breakpoint x\nb"` no line trims to the marker, so the
spec-described procedure yields one statement, while the code yields two. -/
theorem statement_split_not_line_based_cex :
    splitStatements ("a\n-- statement-breakpoint x\nb".toList)
      ≠ specSplitStatements ("a\n-- statement-breakpoint x\nb".toList) := by
  decide

/-- C3 amended: the loader's statement list is obtained by splitting the
content at every non-overlapping occurrence of the marker substring (whether
or not it stands on a line of its own) — the chunks are marker-free and rejoin
with the marker to the original content — then trimming each chunk and
discarding the empty ones, preserving order; a file with no occurrence of the
marker yields the single whole trimmed content, or zero statements when the
content trims to empty. -/
theorem statement_split_on_marker_substring (raw : List Char) :
    goJoin marker (splitGo marker raw) = raw
    ∧ (∀ p ∈ splitGo marker raw, hasOccur marker p = false)
    ∧ splitStatements raw
        = ((splitGo marker raw).map goTrimSpace).filter (fun stmt => !stmt.isEmpty)
    ∧ (hasOccur marker raw = false →
        splitStatements raw = if goTrimSpace raw = [] then [] else [goTrimSpace raw]) := by
  refine ⟨goJoin_splitGo marker_ne_nil raw, splitGo_chunks_no_occur marker_ne_nil raw,
    rfl, ?_⟩
  intro h
  have hsplit : splitGo marker raw = [raw] := by
    simpa [splitGo] using splitGoAcc_no_occur raw [] h
  by_cases hz : goTrimSpace raw = []
  · simp [splitStatements, hsplit, hz]
  · simp [splitStatements, hsplit, hz, List.isEmpty_iff]

/-- Witness for the amended C3 at a marker-free concrete content. -/
theorem statement_split_on_marker_substring_witness :
    goJoin marker (splitGo marker ("select 1".toList)) = "select 1".toList
    ∧ splitStatements ("select 1".toList) = ["select 1".toList] := by
  refine ⟨(statement_split_on_marker_substring ("select 1".toList)).1, ?_⟩
  have h := (statement_split_on_marker_substring ("select 1".toList)).2.2.2 (by decide)
  rw [h]
  decide

/-! ## Filename parsing lemmas (`strings.SplitN(name, "_", 2)`) -/

theorem splitN2Aux_cons (sep acc : List Char) (c : Char) (rest : List Char) :
    splitN2Aux sep acc (c :: rest)
      = if sep.isPrefixOf (c :: rest) then [acc.reverse, (c :: rest).drop sep.length]
        else splitN2Aux sep (c :: acc) rest := rfl

theorem singleton_isPrefixOf_cons_false {c0 c : Char} {rest : List Char}
    (h : c0 ≠ c) : ([c0].isPrefixOf (c :: rest)) = false := by
  simp only [List.isPrefixOf, Bool.and_eq_false_iff]
  left
  simpa using h

theorem splitN2Aux_no_sep (c0 : Char) :
    ∀ (s acc : List Char), c0 ∉ s → splitN2Aux [c0] acc s = [acc.reverse ++ s] := by
  intro s
  induction s with
  | nil => intro acc _; simp [splitN2Aux]
  | cons c rest ih =>
    intro acc h
    simp only [List.mem_cons, not_or] at h
    have hpre : ([c0].isPrefixOf (c :: rest)) = false :=
      singleton_isPrefixOf_cons_false h.1
    rw [splitN2Aux_cons, if_neg (by simp [hpre]), ih (c :: acc) h.2]
    simp

theorem splitN2Aux_found (c0 : Char) :
    ∀ (v acc rest : List Char), c0 ∉ v →
      splitN2Aux [c0] acc (v ++ c0 :: rest) = [acc.reverse ++ v, rest] := by
  intro v
  induction v with
  | nil =>
    intro acc rest _
    have hpre : ([c0].isPrefixOf (c0 :: rest)) = true := by
      simp [List.isPrefixOf]
    rw [List.nil_append, splitN2Aux_cons, if_pos hpre]
    simp
  | cons c v' ih =>
    intro acc rest h
    simp only [List.mem_cons, not_or] at h
    have hpre : ([c0].isPrefixOf (c :: (v' ++ c0 :: rest))) = false :=
      singleton_isPrefixOf_cons_false h.1
    rw [List.cons_append, splitN2Aux_cons, if_neg (by simp [hpre]),
      ih (c :: acc) rest h.2]
    simp

theorem splitN2Aux_two_of_mem (c0 : Char) :
    ∀ (s acc : List Char), c0 ∈ s → ∃ a b, splitN2Aux [c0] acc s = [a, b] := by
  intro s
  induction s with
  | nil => intro acc h; simp at h
  | cons c rest ih =>
    intro acc h
    cases hpre : ([c0].isPrefixOf (c :: rest)) with
    | true =>
      refine ⟨acc.reverse, (c :: rest).drop 1, ?_⟩
      rw [splitN2Aux_cons, if_pos hpre]
      rfl
    | false =>
      have hc : c0 ≠ c := by
        intro e
        subst e
        simp [List.isPrefixOf] at hpre
      have hmem : c0 ∈ rest := by
        rcases List.mem_cons.mp h with e | hm
        · exact absurd e hc
        · exact hm
      obtain ⟨a, b, hab⟩ := ih (c :: acc) hmem
      refine ⟨a, b, ?_⟩
      rw [splitN2Aux_cons, if_neg (by simp [hpre])]
      exact hab

theorem parseMigrationFilename_concat {v : List Char} (rest : List Char)
    (hv : '_' ∉ v) :
    parseMigrationFilename (v ++ '_' :: rest) = some (v, rest) := by
  unfold parseMigrationFilename splitN2
  rw [splitN2Aux_found '_' v [] rest hv]
  simp

theorem parseMigrationFilename_eq_none_iff (fname : List Char) :
    parseMigrationFilename fname = none ↔ '_' ∉ fname := by
  constructor
  · intro h hmem
    obtain ⟨a, b, hab⟩ := splitN2Aux_two_of_mem '_' fname [] hmem
    unfold parseMigrationFilename splitN2 at h
    rw [hab] at h
    simp at h
  · intro h
    unfold parseMigrationFilename splitN2
    rw [splitN2Aux_no_sep '_' fname [] h]

/-- C4 counterexample: the loader keeps the `.sql` extension inside the parsed
name (underscores in the name are preserved, but the extension is not
stripped). -/
theorem filename_name_keeps_extension_cex :
    parseMigrationFilename ("20240101120000_create_users_table.sql".toList)
        = some ("20240101120000".toList, "create_users_table.sql".toList)
    ∧ parseMigrationFilename ("20240101120000_create_users_table.sql".toList)
        ≠ some ("20240101120000".toList, "create_users_table".toList) :=
  ⟨by decide, by decide⟩

/-- C4 amended: for a filename `{version}_{name}.sql` with a separator-free
version, the loader recovers the version as the prefix before the first
underscore and the name as everything after it INCLUDING the `.sql`
extension (the extension is not stripped); underscores inside the name are
preserved. -/
theorem filename_parse_keeps_extension {version name : List Char}
    (hv : '_' ∉ version) :
    parseMigrationFilename (version ++ '_' :: (name ++ ".sql".toList))
      = some (version, name ++ ".sql".toList) :=
  parseMigrationFilename_concat _ hv

/-- Witness for the amended C4. -/
theorem filename_parse_keeps_extension_witness :
    parseMigrationFilename
        ("20240101120000".toList ++ '_' :: ("create_users_table".toList ++ ".sql".toList))
      = some ("20240101120000".toList, "create_users_table".toList ++ ".sql".toList) :=
  filename_parse_keeps_extension (by decide)

theorem loadEntries_error_iff :
    ∀ entries : List DirEntry,
      (∃ msg, loadEntries entries = .error msg) ↔
      (∃ e ∈ entries, e.isDir = false ∧ (".sql".toList).isSuffixOf e.name = true
        ∧ '_' ∉ e.name) := by
  intro entries
  induction entries with
  | nil => simp [loadEntries]
  | cons e rest ih =>
    by_cases hskip : (e.isDir || !((".sql".toList).isSuffixOf e.name)) = true
    · have hrw : loadEntries (e :: rest) = loadEntries rest := by
        simp only [loadEntries]
        rw [if_pos hskip]
      rw [hrw, ih]
      constructor
      · rintro ⟨e2, he2, hprop⟩
        exact ⟨e2, by simp [he2], hprop⟩
      · rintro ⟨e2, he2, hd, hs, hn⟩
        rcases List.mem_cons.mp he2 with rfl | h2
        · rw [hd, hs] at hskip
          simp at hskip
        · exact ⟨e2, h2, hd, hs, hn⟩
    · have hskip' : (e.isDir || !((".sql".toList).isSuffixOf e.name)) = false := by
        simpa using hskip
      obtain ⟨hdir, hsuf0⟩ := Bool.or_eq_false_iff.mp hskip'
      have hsuf : (".sql".toList).isSuffixOf e.name = true := by
        simpa using hsuf0
      cases hp : parseMigrationFilename e.name with
      | none =>
        have hrw : loadEntries (e :: rest)
            = .error ("invalid migration name: ".toList ++ e.name) := by
          simp only [loadEntries]
          rw [if_neg (by rw [hskip']; simp), hp]
        constructor
        · intro _
          exact ⟨e, by simp, hdir, hsuf,
            (parseMigrationFilename_eq_none_iff e.name).mp hp⟩
        · intro _
          exact ⟨_, hrw⟩
      | some pr =>
        obtain ⟨v, nm⟩ := pr
        have hmem : '_' ∈ e.name := by
          by_contra hn
          rw [(parseMigrationFilename_eq_none_iff e.name).mpr hn] at hp
          cases hp
        cases hle : loadEntries rest with
        | error msg =>
          have hrw : loadEntries (e :: rest) = .error msg := by
            simp only [loadEntries]
            rw [if_neg (by rw [hskip']; simp), hp, hle]
          constructor
          · intro _
            obtain ⟨e2, he2, hprop⟩ := ih.mp ⟨msg, hle⟩
            exact ⟨e2, by simp [he2], hprop⟩
          · intro _
            exact ⟨msg, hrw⟩
        | ok ms =>
          have hrw : loadEntries (e :: rest) = .ok (mkMigration v nm e.content :: ms) := by
            simp only [loadEntries]
            rw [if_neg (by rw [hskip']; simp), hp, hle]
          constructor
          · rintro ⟨msg, hmsg⟩
            rw [hrw] at hmsg
            cases hmsg
          · rintro ⟨e2, he2, hd, hs, hn⟩
            rcases List.mem_cons.mp he2 with rfl | h2
            · exact absurd hmem hn
            · obtain ⟨msg, hmsg⟩ := ih.mpr ⟨e2, h2, hd, hs, hn⟩
              rw [hmsg] at hle
              cases hle

/-- C5 counterexample: a filename beginning with the separator is accepted
with an empty version, not rejected — the code only checks for the presence of
the separator, never for non-empty parts. -/
theorem empty_version_accepted_cex :
    parseMigrationFilename ("_foo.sql".toList) = some ([], "foo.sql".toList) := by
  decide

/-- C5 amended: the loader fails with the malformed-filename error if and only
if a `.sql` non-directory entry's filename lacks the underscore separator;
emptiness of the split parts is NOT checked (in particular an empty version is
accepted). -/
theorem malformed_filename_iff_no_separator :
    (∀ fname : List Char, parseMigrationFilename fname = none ↔ '_' ∉ fname)
    ∧ (∀ (sortFn : List Migration → List Migration) (entries : List DirEntry),
        (∃ msg, loadLocalMigrations sortFn entries = .error msg) ↔
        (∃ e ∈ entries, e.isDir = false ∧ (".sql".toList).isSuffixOf e.name = true
          ∧ '_' ∉ e.name)) := by
  refine ⟨parseMigrationFilename_eq_none_iff, ?_⟩
  intro sortFn entries
  rw [← loadEntries_error_iff entries]
  constructor
  · rintro ⟨msg, hmsg⟩
    refine ⟨msg, ?_⟩
    unfold loadLocalMigrations at hmsg
    cases hle : loadEntries entries with
    | error msg2 => rw [hle] at hmsg; cases hmsg; rfl
    | ok ms => rw [hle] at hmsg; cases hmsg
  · rintro ⟨msg, hmsg⟩
    exact ⟨msg, by unfold loadLocalMigrations; rw [hmsg]⟩

/-- Witness for the amended C5: a filename without the separator is rejected,
one with the separator in front (empty version) is not. -/
theorem malformed_filename_iff_no_separator_witness :
    parseMigrationFilename ("nounderscore.sql".toList) = none
    ∧ ¬ parseMigrationFilename ("_foo.sql".toList) = none :=
  ⟨(malformed_filename_iff_no_separator.1 ("nounderscore.sql".toList)).mpr (by decide),
   fun h => by
    have := (malformed_filename_iff_no_separator.1 ("_foo.sql".toList)).mp h
    exact this (by decide)⟩

/-! ## C7: hash properties -/

theorem computeHash_length (s : List Char) : (computeHash s).length = 64 := by
  simp [computeHash, shaStateHex, toHex8]

theorem hexChar_mem (n : Nat) : hexChar n ∈ hexCharList := by
  have hb : ∀ i, i < 16 → hexCharList.getD i '0' ∈ hexCharList := by decide
  exact hb (n % 16) (Nat.mod_lt _ (by norm_num))

theorem mem_toHex8 {n : Nat} {c : Char} (h : c ∈ toHex8 n) : c ∈ hexCharList := by
  simp only [toHex8, List.mem_cons, List.not_mem_nil, or_false] at h
  rcases h with rfl | rfl | rfl | rfl | rfl | rfl | rfl | rfl <;> exact hexChar_mem _

theorem computeHash_hex {s : List Char} {c : Char} (h : c ∈ computeHash s) :
    c ∈ hexCharList := by
  simp only [computeHash, shaStateHex, List.mem_append] at h
  rcases h with ((((((h | h) | h) | h) | h) | h) | h) | h <;> exact mem_toHex8 h

/-- C7: the content hash is a pure function of the raw unsplit file text: the
loader stores `computeHash Raw` (over the original content, not the rejoined
statements), equal inputs give equal digests, the digest is always a 64-char
lowercase hex string, and there are contents with identical statement lists
(differing only in whitespace between breakpoints) whose hashes' inputs — and
digests — differ. -/
theorem hash_pure_of_raw :
    (∀ version name raw, (mkMigration version name raw).Hash = computeHash raw
        ∧ (mkMigration version name raw).Raw = raw)
    ∧ (∀ s t : List Char, s = t → computeHash s = computeHash t)
    ∧ (∀ s : List Char, (computeHash s).length = 64 ∧ ∀ c ∈ computeHash s, c ∈ hexCharList)
    ∧ (∃ r₁ r₂ : List Char, splitStatements r₁ = splitStatements r₂ ∧ r₁ ≠ r₂
        ∧ computeHash r₁ ≠ computeHash r₂) := by
  refine ⟨fun v n raw => ⟨rfl, rfl⟩, fun s t h => by rw [h],
    fun s => ⟨computeHash_length s, fun c hc => computeHash_hex hc⟩,
    ⟨"a\n-- statement-breakpoint\n\nb".toList, "a\n-- statement-breakpoint\nb".toList,
      by decide, by decide, by decide⟩⟩

/-- Witness for C7 at a concrete content. -/
theorem hash_pure_of_raw_witness :
    (mkMigration "1".toList "a.sql".toList "select 1".toList).Hash
        = computeHash ("select 1".toList)
    ∧ computeHash ("select 1".toList) = computeHash ("select 1".toList)
    ∧ (computeHash ("select 1".toList)).length = 64 :=
  ⟨(hash_pure_of_raw.1 "1".toList "a.sql".toList "select 1".toList).1,
   hash_pure_of_raw.2.1 ("select 1".toList) ("select 1".toList) rfl,
   (hash_pure_of_raw.2.2.1 ("select 1".toList)).1⟩

/-! ## C8: ledger array encoding round trip -/

theorem replAll_append (t : Char) (r : List Char) :
    ∀ (a b : List Char), replAll t r (a ++ b) = replAll t r a ++ replAll t r b := by
  intro a b
  induction a with
  | nil => rfl
  | cons c rest ih =>
    show (if c = t then r else [c]) ++ replAll t r (rest ++ b)
        = ((if c = t then r else [c]) ++ replAll t r rest) ++ replAll t r b
    rw [ih, List.append_assoc]

theorem pgEscape_cons (c : Char) (v : List Char) :
    pgEscape (c :: v)
      = (if c = '\\' then ['\\', '\\'] else if c = '"' then ['\\', '"'] else [c])
          ++ pgEscape v := by
  by_cases h1 : c = '\\'
  · subst h1
    simp [pgEscape, replAll, replAll_append]
  · by_cases h2 : c = '"'
    · subst h2
      simp [pgEscape, replAll, replAll_append]
    · simp [pgEscape, replAll, replAll_append, h1, h2]

theorem parseQuotedBody_cons (c : Char) (rest : List Char) :
    parseQuotedBody (c :: rest)
      = if c = '\\' then
          (match rest with
           | [] => none
           | x :: rest2 => (parseQuotedBody rest2).map (fun p => (x :: p.1, p.2)))
        else if c = '"' then some ([], rest)
        else (parseQuotedBody rest).map (fun p => (c :: p.1, p.2)) := by
  cases rest with
  | nil => rfl
  | cons x rest2 => rfl

theorem parseQuotedBody_escape :
    ∀ (v r : List Char), parseQuotedBody (pgEscape v ++ '"' :: r) = some (v, r) := by
  intro v
  induction v with
  | nil =>
    intro r
    show parseQuotedBody ('"' :: r) = some ([], r)
    rw [parseQuotedBody_cons, if_neg (by decide), if_pos rfl]
  | cons c v' ih =>
    intro r
    rw [pgEscape_cons]
    by_cases h1 : c = '\\'
    · subst h1
      show (parseQuotedBody (pgEscape v' ++ '"' :: r)).map
          (fun p => ('\\' :: p.1, p.2)) = some ('\\' :: v', r)
      rw [ih r]
      rfl
    · by_cases h2 : c = '"'
      · subst h2
        show (parseQuotedBody (pgEscape v' ++ '"' :: r)).map
            (fun p => ('"' :: p.1, p.2)) = some ('"' :: v', r)
        rw [ih r]
        rfl
      · rw [if_neg h1, if_neg h2]
        simp only [List.singleton_append, List.cons_append, List.nil_append]
        rw [parseQuotedBody_cons, if_neg h1, if_neg h2, ih r]
        rfl

/-- The body of a non-empty array literal: the quoted, comma-joined elements
followed by the closing brace. -/
def encBody (arr : List (List Char)) : List Char :=
  goJoin [','] (arr.map (fun v => '"' :: (pgEscape v ++ ['"']))) ++ ['}']

theorem encBody_cons_cons (v w : List Char) (rest : List (List Char)) :
    encBody (v :: w :: rest)
      = '"' :: (pgEscape v ++ '"' :: ',' :: encBody (w :: rest)) := by
  simp only [encBody, List.map_cons]
  rw [goJoin_cons_of_ne_nil _ _ (by simp)]
  simp [List.append_assoc]

theorem encBody_single (v : List Char) :
    encBody [v] = '"' :: (pgEscape v ++ '"' :: ['}']) := by
  simp [encBody, goJoin, List.append_assoc]

theorem encBody_length : ∀ arr : List (List Char), arr ≠ [] →
    arr.length ≤ (encBody arr).length := by
  intro arr
  induction arr with
  | nil => intro h; exact absurd rfl h
  | cons v rest ih =>
    intro _
    cases rest with
    | nil => simp [encBody_single]
    | cons w rest2 =>
      have hih := ih (by simp)
      rw [encBody_cons_cons]
      simp only [List.length_cons, List.length_append] at hih ⊢
      omega

theorem parseElems_encBody :
    ∀ (arr : List (List Char)) (fuel : Nat), arr ≠ [] → arr.length ≤ fuel →
      parseElemsFuel fuel (encBody arr) = some arr := by
  intro arr
  induction arr with
  | nil => intro fuel h; exact absurd rfl h
  | cons v rest ih =>
    intro fuel _ hfuel
    cases fuel with
    | zero => simp at hfuel
    | succ f =>
      cases rest with
      | nil =>
        rw [encBody_single]
        simp only [parseElemsFuel, if_true]
        rw [parseQuotedBody_escape v ['}']]
        simp
      | cons w rest2 =>
        rw [encBody_cons_cons]
        simp only [parseElemsFuel, if_true]
        rw [parseQuotedBody_escape v (',' :: encBody (w :: rest2))]
        have hre := ih f (by simp) (by simpa using Nat.le_of_succ_le_succ hfuel)
        simp [hre]

/-- C8: the ledger array encoder maps the empty statement list to the empty
array literal, and decoding the produced Postgres text-array literal
reproduces any statement list exactly — including statements containing
double quotes and backslashes. -/
theorem pg_array_roundtrip :
    formatPostgresArray [] = ['{', '}']
    ∧ ∀ arr : List (List Char), parsePostgresArray (formatPostgresArray arr) = some arr := by
  refine ⟨rfl, ?_⟩
  intro arr
  cases arr with
  | nil => rfl
  | cons v rest =>
    have hform : formatPostgresArray (v :: rest) = '{' :: encBody (v :: rest) := by
      simp [formatPostgresArray, encBody]
    rw [hform]
    have hhead : encBody (v :: rest) ≠ ['}'] := by
      cases rest with
      | nil => rw [encBody_single]; simp
      | cons w rest2 => rw [encBody_cons_cons]; simp
    simp only [parsePostgresArray, if_true]
    rw [if_neg hhead]
    exact parseElems_encBody (v :: rest) _ (by simp) (encBody_length _ (by simp))

end SupabaseDirectMigrate
